import Mathlib

/-!
# Proof-of-work block chain (`blockchain.go`)

A shallow embedding of `Block`, `Blockchain`, `calculateHash`, `mine`,
`CreateBlockchain`, `addBlock` and `isValid`, followed by theorems about them.

Conventions of the embedding.

* Go `string` is `String`; `[]byte(s)` is the UTF-8 encoding of `s`.
* Go `int` is `Int`; the one place where an `int` is incremented (`b.pow++`)
  wraps at 64 bits (`wrapInt`).
* `float64` is its IEEE-754 bit pattern, a `Nat` below `2 ^ 64`.
* The standard-library functions whose results the program only passes on
  (`sha256.Sum256`, the JSON rendering of a string and of a finite float,
  `time.Time.String`) are the fields of `Lib`; the theorems are stated for every `Lib`,
  and `zeroLib` instantiates them in the concrete runs.
  What the program can observe of them by type is kept: a digest is 32 bytes.
* `time.Now()` is an input of `CreateBlockchain` and `addBlock`.
* A run-time panic is `Except.error`; a loop that has not finished within the
  given fuel (number of loop iterations) is `none`.
* `fmt.Println(err)` in `calculateHash` writes to standard output and is not modelled.
-/

namespace BuildBlockChain

/-! ## Data model -/

/-- A `time.Time` value (wall clock word, extension word, location name). -/
structure Time where
  wall : Nat
  ext : Int
  loc : Option String
deriving DecidableEq, Repr

/-- The dynamic values the program stores in a block's `data` map:
`string` and `float64` (given by its bit pattern). -/
inductive Value where
  | str (s : String)
  | float64 (bits : Nat)
deriving DecidableEq, Repr

/-- A `map[string]interface` value: `none` is the nil map, `some kvs` a map with the listed entries. -/
abbrev Data := Option (List (String × Value))

/-- The array type `[32]byte` returned by `sha256.Sum256`. -/
structure Digest where
  bytes : List Nat
  size : bytes.length = 32
  isByte : ∀ x ∈ bytes, x < 256

/-- The standard-library functions the program calls and whose results it passes on. -/
structure Lib where
  /-- Function `sha256.Sum256` of `crypto/sha256`, on the bytes of its argument. -/
  Sum256 : List Nat → Digest
  /-- The JSON string literal `encoding/json` writes for a Go string. -/
  appendString : String → String
  /-- The text `encoding/json` writes for a finite `float64`. -/
  formatFloat : Nat → String
  /-- Method `time.Time.String`. -/
  timeString : Time → String

/-- Block struct which represents a single block in the blockchain. -/
structure Block where
  data : Data
  hash : String
  previousHash : String
  timestamp : Time
  pow : Int
deriving DecidableEq

/-- Blockchain struct which represents a single blockchain. -/
structure Blockchain where
  genesisBlock : Block
  chain : List Block
  difficulty : Int
deriving DecidableEq

def fromAddressField : String := "from"
def toAddressField : String := "to"
def amountField : String := "amount"

/-! ## Library functions with a fixed meaning -/

/-- Function `strings.Repeat` for a non-negative count. -/
def Repeat (s : String) (count : Nat) : String :=
  ⟨(List.replicate count s.data).flatten⟩

/-- Function `strings.HasPrefix`. -/
def HasPrefix (s pre : String) : Bool :=
  pre.data.isPrefixOf s.data

/-- Function `strconv.Itoa`. -/
def Itoa (i : Int) : String :=
  match i with
  | Int.ofNat n => Nat.repr n
  | Int.negSucc n => "-" ++ Nat.repr (n + 1)

/-- The effect of `++` on a Go `int` (64 bits, two's complement). -/
def wrapInt (x : Int) : Int :=
  (x + 2 ^ 63) % 2 ^ 64 - 2 ^ 63

/-- The bytes `[]byte(s)` of a string. -/
def bytesOf (s : String) : List Nat :=
  (s.data.map fun c => (String.utf8EncodeChar c).map UInt8.toNat).flatten

/-- One lowercase hexadecimal digit. -/
def hexDigit (n : Nat) : Char :=
  Nat.digitChar (n % 16)

/-- The two digits `%x` writes for one byte. -/
def hexByte (b : Nat) : List Char :=
  [hexDigit (b / 16), hexDigit b]

/-- The string `fmt.Sprintf("%x", blockHash)` for a `[32]byte`. -/
def Sprintf_x (d : Digest) : String :=
  ⟨(d.bytes.map hexByte).flatten⟩

/-- Exponent field of a `float64` bit pattern. -/
def float64Exp (bits : Nat) : Nat := (bits / 2 ^ 52) % 2 ^ 11

/-- Fraction field of a `float64` bit pattern. -/
def float64Frac (bits : Nat) : Nat := bits % 2 ^ 52

/-- Sign bit of a `float64` bit pattern. -/
def float64Sign (bits : Nat) : Nat := (bits / 2 ^ 63) % 2

/-- Function `math.IsNaN`. -/
def IsNaN (bits : Nat) : Bool := float64Exp bits == 2047 && float64Frac bits != 0

/-- Function `math.IsInf(f, 0)`. -/
def IsInf (bits : Nat) : Bool := float64Exp bits == 2047 && float64Frac bits == 0

/-- What `strconv.FormatFloat(f, 'g', -1, 64)` yields for a NaN or an infinity. -/
def formatSpecial (bits : Nat) : String :=
  if IsNaN bits then "NaN" else if float64Sign bits == 1 then "-Inf" else "+Inf"

/-- The JSON encoder for one map value: a string becomes a string literal, a `float64`
that is infinite or NaN raises `UnsupportedValueError`, a finite one is formatted. -/
def encodeValue (L : Lib) : Value → Except String String
  | Value.str s => Except.ok (L.appendString s)
  | Value.float64 bits =>
    if IsInf bits || IsNaN bits then
      Except.error ("json: unsupported value: " ++ formatSpecial bits)
    else Except.ok (L.formatFloat bits)

/-- Lexicographic order on byte sequences. -/
def lessBytes : List Nat → List Nat → Bool
  | [], [] => false
  | [], _ :: _ => true
  | _ :: _, [] => false
  | a :: as, b :: bs => if a < b then true else if b < a then false else lessBytes as bs

/-- The test `strings.Compare(a, b) < 0`, which compares two strings byte by byte. -/
def keyLess (a b : String) : Bool :=
  lessBytes (bytesOf a) (bytesOf b)

/-- Insert an entry into a list of entries ordered by key. -/
def insertKey (kv : String × Value) : List (String × Value) → List (String × Value)
  | [] => [kv]
  | x :: xs => if keyLess x.1 kv.1 then x :: insertKey kv xs else kv :: x :: xs

/-- The map encoder sorts the entries by key before writing them. -/
def sortKeys : List (String × Value) → List (String × Value)
  | [] => []
  | kv :: rest => insertKey kv (sortKeys rest)

/-- The entries `key:value` in the given order; the first value that fails aborts. -/
def encodeEntries (L : Lib) : List (String × Value) → Except String (List String)
  | [] => Except.ok []
  | kv :: rest =>
    match encodeValue L kv.2 with
    | Except.error err => Except.error err
    | Except.ok v =>
      match encodeEntries L rest with
      | Except.error err => Except.error err
      | Except.ok vs => Except.ok ((L.appendString kv.1 ++ ":" ++ v) :: vs)

/-- Function `json.Marshal` on a block's data map: the text, or the error's `Error()`. -/
def Marshal (L : Lib) : Data → Except String String
  | none => Except.ok "null"
  | some m =>
    match encodeEntries L (sortKeys m) with
    | Except.error err => Except.error err
    | Except.ok parts => Except.ok ("\x7b" ++ ",".intercalate parts ++ "\x7d")

/-! ## The program -/

/-- Method `calculateHash` of `Block`: the error text when the data cannot be marshalled,
else the hex SHA-256 of previous hash, data, timestamp and proof of work concatenated. -/
def calculateHash (L : Lib) (b : Block) : String :=
  match Marshal L b.data with
  | Except.error err => err
  | Except.ok data =>
    let blockData := b.previousHash ++ data ++ L.timeString b.timestamp ++ Itoa b.pow
    let blockHash := L.Sum256 (bytesOf blockData)
    Sprintf_x blockHash

/-- The body of the loop of `mine`: `b.pow++` then `b.hash = b.calculateHash()`. -/
def mineStep (L : Lib) (b : Block) : Block :=
  let b1 : Block := { b with pow := wrapInt (b.pow + 1) }
  { b1 with hash := calculateHash L b1 }

/-- Method `mine` of `Block`, run for at most `fuel` loop iterations. `strings.Repeat`
panics on a negative count. -/
def mine (L : Lib) (fuel : Nat) (b : Block) (difficulty : Int) : Option (Except String Block) :=
  if difficulty < 0 then some (Except.error "strings: negative Repeat count")
  else if HasPrefix b.hash (Repeat "0" difficulty.toNat) then some (Except.ok b)
  else
    match fuel with
    | 0 => none
    | f + 1 => mine L f (mineStep L b) difficulty

/-- CreateBlockchain creates a new blockchain with a genesis block. -/
def CreateBlockchain (difficulty : Int) (now : Time) : Blockchain :=
  let genesisBlock : Block :=
    { data := none, hash := "0", previousHash := "", timestamp := now, pow := 0 }
  { genesisBlock := genesisBlock, chain := [genesisBlock], difficulty := difficulty }

/-- Method `addBlock` of `Blockchain`; `fuel` bounds the mining loop. Indexing the last
block of an empty chain panics. -/
def addBlock (L : Lib) (fuel : Nat) (bc : Blockchain) (from_ to_ : String) (amount : Nat)
    (now : Time) : Option (Except String Blockchain) :=
  let blockData : Data :=
    some [(fromAddressField, Value.str from_), (toAddressField, Value.str to_),
      (amountField, Value.float64 amount)]
  match bc.chain.getLast? with
  | none => some (Except.error "index out of range [-1]")
  | some lastBlock =>
    let newBlock : Block :=
      { data := blockData, hash := "", previousHash := lastBlock.hash, timestamp := now, pow := 0 }
    match mine L fuel newBlock bc.difficulty with
    | none => none
    | some (Except.error err) => some (Except.error err)
    | some (Except.ok mined) => some (Except.ok { bc with chain := bc.chain ++ [mined] })

/-- The loop of `isValid` from the pair `(previousBlock, first of rest)` on. -/
def isValidLoop (L : Lib) : Block → List Block → Bool
  | _, [] => true
  | previousBlock, currentBlock :: rest =>
    if currentBlock.hash != calculateHash L currentBlock
        || currentBlock.previousHash != previousBlock.hash then false
    else isValidLoop L currentBlock rest

/-- Method `isValid` of `Blockchain`. Slicing `b.chain[1:]` panics on an empty chain. -/
def isValid (L : Lib) (bc : Blockchain) : Except String Bool :=
  match bc.chain with
  | [] => Except.error "slice bounds out of range [1:0]"
  | first :: rest => Except.ok (isValidLoop L first rest)

/-- One `addBlock` call: its arguments, the clock reading it sees, and the fuel of its
mining loop. -/
structure Call where
  fuel : Nat
  from_ : String
  to_ : String
  amount : Nat
  now : Time

/-- A sequence of `addBlock` calls, stopping at the first that does not return. -/
def addBlocks (L : Lib) : Blockchain → List Call → Option (Except String Blockchain)
  | bc, [] => some (Except.ok bc)
  | bc, c :: cs =>
    match addBlock L c.fuel bc c.from_ c.to_ c.amount c.now with
    | some (Except.ok bc1) => addBlocks L bc1 cs
    | r => r

/-- A library instance whose digest is constantly zero: with it a mining loop ends after
one iteration at every difficulty up to 64. -/
def zeroLib : Lib where
  Sum256 := fun _ => ⟨List.replicate 32 0, by simp, by simp⟩
  appendString := fun s => "\"" ++ s ++ "\""
  formatFloat := fun bits => Nat.repr bits
  timeString := fun t => Nat.repr t.wall

/-- The zero value of `time.Time`, also the clock reading of the concrete runs below. -/
def t0 : Time := ⟨0, 0, none⟩

/-- The zero value of `Block`. -/
def zeroBlock : Block :=
  { data := none, hash := "", previousHash := "", timestamp := t0, pow := 0 }

/-- The bit pattern of the `float64` value `5`. -/
def five : Nat := 0x4014000000000000

/-- The bit pattern of `math.NaN()`. -/
def nan : Nat := 0x7FF8000000000001

/-- The block `addBlock("Alice", "Bob", 5)` builds on a fresh chain, before it is mined. -/
def aliceBlock : Block :=
  { data := some [(fromAddressField, Value.str "Alice"), (toAddressField, Value.str "Bob"),
      (amountField, Value.float64 five)],
    hash := "", previousHash := "0", timestamp := t0, pow := 0 }

/-- The block `addBlock("Alice", "Bob", math.NaN())` builds on a fresh chain, before it is
mined. -/
def nanBlock : Block :=
  { data := some [(fromAddressField, Value.str "Alice"), (toAddressField, Value.str "Bob"),
      (amountField, Value.float64 nan)],
    hash := "", previousHash := "0", timestamp := t0, pow := 0 }

/-- The block `addBlock(from, to, amount)` builds before mining it, on a chain whose last
block has hash `lastHash`. -/
def freshBlock (lastHash from_ to_ : String) (amount : Nat) (now : Time) : Block :=
  { data := some [(fromAddressField, Value.str from_), (toAddressField, Value.str to_),
      (amountField, Value.float64 amount)],
    hash := "", previousHash := lastHash, timestamp := now, pow := 0 }

/-- The chain `CreateBlockchain(1)` followed by `addBlock("Alice", "Bob", 5)` yields when
the digest is that of `zeroLib`. -/
def aliceChain : Blockchain :=
  { genesisBlock := (CreateBlockchain 1 t0).genesisBlock,
    chain := [(CreateBlockchain 1 t0).genesisBlock, mineStep zeroLib aliceBlock],
    difficulty := 1 }

/-- The variables of a run of `isValid`: the receiver `b` and the two locals. -/
structure ValidState where
  b : Blockchain
  previousBlock : Block
  currentBlock : Block

/-- The loop of `isValid` statement by statement, with `remaining` iterations still to do
at index `i`: both index expressions may fail, the two assignments write the locals, and
`calculateHash` is called on the local `currentBlock`. -/
def isValidIter (L : Lib) : Nat → Nat → ValidState → Except String (Bool × ValidState)
  | 0, _, s => Except.ok (true, s)
  | remaining + 1, i, s =>
    match s.b.chain[i]? with
    | none => Except.error "index out of range"
    | some blockAtI =>
      let s1 : ValidState := { s with previousBlock := blockAtI }
      match s1.b.chain[i + 1]? with
      | none => Except.error "index out of range"
      | some blockAfterI =>
        let s2 : ValidState := { s1 with currentBlock := blockAfterI }
        if s2.currentBlock.hash != calculateHash L s2.currentBlock
            || s2.currentBlock.previousHash != s2.previousBlock.hash then
          Except.ok (false, s2)
        else isValidIter L remaining (i + 1) s2

/-- Method `isValid` as a run on the program state: the result and the block chain the
receiver points to afterwards. The locals start as zero values; `range b.chain[1:]` fixes
the number of iterations at `len(b.chain) - 1` and fails on an empty chain. -/
def isValidExec (L : Lib) (bc : Blockchain) : Except String (Bool × Blockchain) :=
  if bc.chain.length < 1 then Except.error "slice bounds out of range [1:0]"
  else
    match isValidIter L (bc.chain.length - 1) 0
        { b := bc, previousBlock := zeroBlock, currentBlock := zeroBlock } with
    | Except.error err => Except.error err
    | Except.ok (result, s) => Except.ok (result, s.b)

/-! ## Facts about the library functions -/

theorem Sprintf_x_length (d : Digest) : (Sprintf_x d).length = 64 := by
  have h : ∀ l : List Nat, ((l.map hexByte).flatten).length = 2 * l.length := by
    intro l
    induction l with
    | nil => rfl
    | cons a t ih => simp [hexByte, ih]; omega
  show ((d.bytes.map hexByte).flatten).length = 64
  rw [h, d.size]

theorem encodeValue_error (L : Lib) (v : Value) (err : String)
    (h : encodeValue L v = Except.error err) :
    ∃ t, err = "json: unsupported value: " ++ t := by
  cases v with
  | str s => simp [encodeValue] at h
  | float64 bits =>
    simp only [encodeValue] at h
    split at h
    · exact ⟨formatSpecial bits, by injection h with h; exact h.symm⟩
    · simp at h

theorem encodeEntries_error (L : Lib) (m : List (String × Value)) (err : String)
    (h : encodeEntries L m = Except.error err) :
    ∃ t, err = "json: unsupported value: " ++ t := by
  induction m with
  | nil => simp [encodeEntries] at h
  | cons kv rest ih =>
    unfold encodeEntries at h
    split at h
    · next e he =>
      injection h with h
      subst h
      exact encodeValue_error L kv.2 e he
    · next v hv =>
      split at h
      · next e he =>
        injection h with h
        subst h
        exact ih he
      · simp at h

theorem Marshal_error (L : Lib) (d : Data) (err : String)
    (h : Marshal L d = Except.error err) :
    ∃ t, err = "json: unsupported value: " ++ t := by
  cases d with
  | none => simp [Marshal] at h
  | some m =>
    simp only [Marshal] at h
    split at h
    · next e he =>
      injection h with h
      subst h
      exact encodeEntries_error L (sortKeys m) e he
    · simp at h

/-- The result of `calculateHash` is the text of a marshalling error, which starts with
`json: `, or 64 hexadecimal digits. -/
theorem calculateHash_cases (L : Lib) (b : Block) :
    (∃ t, calculateHash L b = "json: unsupported value: " ++ t) ∨
      (calculateHash L b).length = 64 := by
  unfold calculateHash
  split
  · next e he => exact Or.inl (Marshal_error L b.data e he)
  · exact Or.inr (Sprintf_x_length _)

theorem calculateHash_ne_empty (L : Lib) (b : Block) : calculateHash L b ≠ "" := by
  intro h
  rcases calculateHash_cases L b with ⟨t, ht⟩ | hlen
  · rw [h] at ht
    have := congrArg String.length ht
    simp [String.length_append] at this
    have h2 : ("json: unsupported value: " : String).length = 25 := by decide
    omega
  · rw [h] at hlen
    simp at hlen

theorem Repeat_zero_data (n : Nat) : (Repeat "0" n).data = List.replicate n '0' := by
  show (List.replicate n ['0']).flatten = List.replicate n '0'
  induction n with
  | zero => rfl
  | succ k ih => simp [List.replicate_succ, ih]

theorem HasPrefix_zeros_iff (s : String) (n : Nat) :
    HasPrefix s (Repeat "0" n) = true ↔ List.replicate n '0' <+: s.data := by
  unfold HasPrefix
  rw [Repeat_zero_data, List.isPrefixOf_iff_prefix]

theorem HasPrefix_zeros_length (s : String) (n : Nat)
    (h : HasPrefix s (Repeat "0" n) = true) : n ≤ s.length := by
  rw [HasPrefix_zeros_iff] at h
  have := h.length_le
  simpa using this

theorem HasPrefix_empty (s : String) : HasPrefix s (Repeat "0" 0) = true := by
  rw [HasPrefix_zeros_iff]
  simp

theorem HasPrefix_zeros_of_empty (n : Nat) (h : 1 ≤ n) :
    HasPrefix "" (Repeat "0" n) = false := by
  cases hp : HasPrefix "" (Repeat "0" n) with
  | false => rfl
  | true =>
    have := HasPrefix_zeros_length "" n hp
    simp at this
    omega

/-- No result of `calculateHash` that is an error text starts with the character `0`. -/
theorem HasPrefix_zeros_of_error (t : String) (n : Nat) (h : 1 ≤ n) :
    HasPrefix ("json: unsupported value: " ++ t) (Repeat "0" n) = false := by
  cases hp : HasPrefix ("json: unsupported value: " ++ t) (Repeat "0" n) with
  | false => rfl
  | true =>
    rw [HasPrefix_zeros_iff] at hp
    obtain ⟨m, rfl⟩ : ∃ m, n = m + 1 := ⟨n - 1, by omega⟩
    have hd : ("json: unsupported value: " ++ t).data
        = 'j' :: ("son: unsupported value: " ++ t).data := rfl
    rw [hd, List.replicate_succ] at hp
    have := List.cons_prefix_cons.mp hp
    exact absurd this.1 (by decide)

/-! ## Facts about `calculateHash` and `mine` -/

theorem calculateHash_hash_irrelevant (L : Lib) (b : Block) (h : String) :
    calculateHash L { b with hash := h } = calculateHash L b := rfl

theorem mineStep_hash (L : Lib) (b : Block) :
    (mineStep L b).hash = calculateHash L (mineStep L b) := rfl

theorem mineStep_frame (L : Lib) (b : Block) :
    (mineStep L b).data = b.data ∧ (mineStep L b).previousHash = b.previousHash ∧
      (mineStep L b).timestamp = b.timestamp := ⟨rfl, rfl, rfl⟩

theorem mine_neg (L : Lib) (n : Nat) (b : Block) (d : Int) (h : d < 0) :
    mine L n b d = some (Except.error "strings: negative Repeat count") := by
  cases n <;> simp [mine, h]

theorem mine_done (L : Lib) (n : Nat) (b : Block) (d : Int) (h : 0 ≤ d)
    (hp : HasPrefix b.hash (Repeat "0" d.toNat) = true) :
    mine L n b d = some (Except.ok b) := by
  have : ¬ d < 0 := by omega
  cases n <;> simp [mine, this, hp]

theorem mine_zero (L : Lib) (b : Block) (d : Int) (h : 0 ≤ d)
    (hp : HasPrefix b.hash (Repeat "0" d.toNat) = false) :
    mine L 0 b d = none := by
  have : ¬ d < 0 := by omega
  simp [mine, this, hp]

theorem mine_succ (L : Lib) (n : Nat) (b : Block) (d : Int) (h : 0 ≤ d)
    (hp : HasPrefix b.hash (Repeat "0" d.toNat) = false) :
    mine L (n + 1) b d = mine L n (mineStep L b) d := by
  have : ¬ d < 0 := by omega
  simp [mine, this, hp]

/-- A returning `mine` has run some number `k` of loop iterations, none of the earlier
states had the zeros in front, and the final one has. -/
theorem mine_ok_spec (L : Lib) (d : Int) :
    ∀ (n : Nat) (b b1 : Block), mine L n b d = some (Except.ok b1) →
      0 ≤ d ∧ HasPrefix b1.hash (Repeat "0" d.toNat) = true ∧
        ∃ k, k ≤ n ∧ b1 = (mineStep L)^[k] b ∧
          ∀ j, j < k → HasPrefix ((mineStep L)^[j] b).hash (Repeat "0" d.toNat) = false := by
  intro n
  induction n with
  | zero =>
    intro b b1 h
    by_cases hd : d < 0
    · rw [mine_neg L 0 b d hd] at h; simp at h
    · have hd0 : 0 ≤ d := by omega
      cases hp : HasPrefix b.hash (Repeat "0" d.toNat) with
      | false => rw [mine_zero L b d hd0 hp] at h; simp at h
      | true =>
        rw [mine_done L 0 b d hd0 hp] at h
        simp at h
        subst h
        exact ⟨hd0, hp, 0, le_refl _, rfl, fun j hj => absurd hj (Nat.not_lt_zero j)⟩
  | succ m ih =>
    intro b b1 h
    by_cases hd : d < 0
    · rw [mine_neg L _ b d hd] at h; simp at h
    · have hd0 : 0 ≤ d := by omega
      cases hp : HasPrefix b.hash (Repeat "0" d.toNat) with
      | true =>
        rw [mine_done L _ b d hd0 hp] at h
        simp at h
        subst h
        exact ⟨hd0, hp, 0, Nat.zero_le _, rfl, fun j hj => absurd hj (Nat.not_lt_zero j)⟩
      | false =>
        rw [mine_succ L m b d hd0 hp] at h
        obtain ⟨_, hb1, k, hk, hiter, hmin⟩ := ih (mineStep L b) b1 h
        refine ⟨hd0, hb1, k + 1, by omega, ?_, ?_⟩
        · rw [Function.iterate_succ_apply]; exact hiter
        · intro j hj
          cases j with
          | zero => exact hp
          | succ i =>
            rw [Function.iterate_succ_apply]
            exact hmin i (by omega)

/-- If some number of loop iterations yields a hash with the zeros in front, `mine`
returns when given enough fuel. -/
theorem mine_returns_of_iterate (L : Lib) (d : Int) (hd : 0 ≤ d) :
    ∀ (k : Nat) (b : Block),
      HasPrefix ((mineStep L)^[k] b).hash (Repeat "0" d.toNat) = true →
      ∃ n b1, mine L n b d = some (Except.ok b1) := by
  intro k
  induction k with
  | zero =>
    intro b h
    exact ⟨0, b, mine_done L 0 b d hd h⟩
  | succ m ih =>
    intro b h
    cases hp : HasPrefix b.hash (Repeat "0" d.toNat) with
    | true => exact ⟨0, b, mine_done L 0 b d hd hp⟩
    | false =>
      rw [Function.iterate_succ_apply] at h
      obtain ⟨n, b1, hn⟩ := ih (mineStep L b) h
      exact ⟨n + 1, b1, by rw [mine_succ L n b d hd hp]; exact hn⟩

/-! ## Facts about `isValid` -/

theorem isValidLoop_iff (L : Lib) :
    ∀ (rest : List Block) (p : Block),
      isValidLoop L p rest = true ↔
        ∀ (i : Nat) (cur prev : Block), (p :: rest)[i + 1]? = some cur →
          (p :: rest)[i]? = some prev →
          cur.hash = calculateHash L cur ∧ cur.previousHash = prev.hash := by
  intro rest
  induction rest with
  | nil =>
    intro p
    simp [isValidLoop]
  | cons c r ih =>
    intro p
    constructor
    · intro h i cur prev hc hp
      simp only [isValidLoop] at h
      split at h
      · simp at h
      · next hcheck =>
        simp only [Bool.or_eq_true, bne_iff_ne, ne_eq, not_or, not_not] at hcheck
        cases i with
        | zero =>
          simp at hc hp
          subst hc hp
          exact hcheck
        | succ j =>
          exact (ih c).mp h j cur prev (by simpa using hc) (by simpa using hp)
    · intro h
      have h0 := h 0 c p (by simp) (by simp)
      simp only [isValidLoop]
      split
      · next hcheck =>
        simp only [Bool.or_eq_true, bne_iff_ne, ne_eq] at hcheck
        rcases hcheck with hc | hc
        · exact absurd h0.1 hc
        · exact absurd h0.2 hc
      · exact (ih c).mpr fun i cur prev hc hp =>
          h (i + 1) cur prev (by simpa using hc) (by simpa using hp)

theorem isValid_nonempty (L : Lib) (bc : Blockchain) (h : bc.chain ≠ []) :
    ∃ r, isValid L bc = Except.ok r := by
  unfold isValid
  cases hc : bc.chain with
  | nil => exact absurd hc h
  | cons first rest => exact ⟨_, rfl⟩

theorem isValid_true_iff (L : Lib) (bc : Blockchain) (h : bc.chain ≠ []) :
    isValid L bc = Except.ok true ↔
      ∀ (i : Nat) (cur prev : Block), bc.chain[i + 1]? = some cur →
        bc.chain[i]? = some prev →
        cur.hash = calculateHash L cur ∧ cur.previousHash = prev.hash := by
  unfold isValid
  cases hc : bc.chain with
  | nil => exact absurd hc h
  | cons first rest =>
    simp only [Except.ok.injEq]
    exact isValidLoop_iff L rest first

theorem isValid_false_of_not_true (L : Lib) (bc : Blockchain) (h : bc.chain ≠ [])
    (hn : isValid L bc ≠ Except.ok true) : isValid L bc = Except.ok false := by
  obtain ⟨r, hr⟩ := isValid_nonempty L bc h
  cases r with
  | true => exact absurd hr hn
  | false => exact hr

/-! ## Facts about `addBlock` and sequences of calls -/

theorem iterate_mineStep_frame (L : Lib) (k : Nat) (b : Block) :
    ((mineStep L)^[k] b).data = b.data ∧ ((mineStep L)^[k] b).previousHash = b.previousHash ∧
      ((mineStep L)^[k] b).timestamp = b.timestamp := by
  induction k with
  | zero => exact ⟨rfl, rfl, rfl⟩
  | succ m ih =>
    rw [Function.iterate_succ_apply']
    exact ih

theorem mine_frame (L : Lib) (n : Nat) (b b1 : Block) (d : Int)
    (h : mine L n b d = some (Except.ok b1)) :
    b1.data = b.data ∧ b1.previousHash = b.previousHash ∧ b1.timestamp = b.timestamp := by
  obtain ⟨_, _, k, _, hiter, _⟩ := mine_ok_spec L d n b b1 h
  rw [hiter]
  exact iterate_mineStep_frame L k b

theorem mine_hash_of_ran (L : Lib) (n : Nat) (b b1 : Block) (d : Int)
    (h : mine L n b d = some (Except.ok b1))
    (hrun : HasPrefix b.hash (Repeat "0" d.toNat) = false) :
    b1.hash = calculateHash L b1 := by
  obtain ⟨_, hb1, k, _, hiter, _⟩ := mine_ok_spec L d n b b1 h
  cases k with
  | zero =>
    simp only [Function.iterate_zero, id_eq] at hiter
    subst hiter
    rw [hrun] at hb1
    exact absurd hb1 (by simp)
  | succ m =>
    rw [Function.iterate_succ_apply'] at hiter
    subst hiter
    exact mineStep_hash L _

/-- What a returning `addBlock` has done. -/
theorem addBlock_ok_spec (L : Lib) (n : Nat) (bc bc1 : Blockchain) (from_ to_ : String)
    (amount : Nat) (now : Time)
    (h : addBlock L n bc from_ to_ amount now = some (Except.ok bc1)) :
    ∃ last mined, bc.chain.getLast? = some last ∧
      mine L n (freshBlock last.hash from_ to_ amount now) bc.difficulty
        = some (Except.ok mined) ∧
      bc1 = { bc with chain := bc.chain ++ [mined] } := by
  unfold addBlock at h
  simp only at h
  split at h
  · simp at h
  · next last hl =>
    split at h
    · simp at h
    · simp at h
    · next mined hm =>
      simp only [Option.some.injEq, Except.ok.injEq] at h
      exact ⟨last, mined, hl, hm, h.symm⟩

theorem getLast?_eq_getElem? (l : List Block) (last : Block) (h : l.getLast? = some last) :
    l ≠ [] ∧ l[l.length - 1]? = some last := by
  rw [List.getLast?_eq_getElem?] at h
  refine ⟨?_, h⟩
  intro h0
  subst h0
  simp at h

/-- An invariant of every block chain that every returning `addBlock` keeps holds after a
sequence of calls. -/
theorem addBlocks_induction (L : Lib) (P : Blockchain → Prop)
    (hstep : ∀ (bc bc1 : Blockchain) (c : Call), P bc →
      addBlock L c.fuel bc c.from_ c.to_ c.amount c.now = some (Except.ok bc1) → P bc1) :
    ∀ (calls : List Call) (bc bc1 : Blockchain), P bc →
      addBlocks L bc calls = some (Except.ok bc1) → P bc1 := by
  intro calls
  induction calls with
  | nil =>
    intro bc bc1 hP h
    simp only [addBlocks, Option.some.injEq, Except.ok.injEq] at h
    exact h ▸ hP
  | cons c cs ih =>
    intro bc bc1 hP h
    simp only [addBlocks] at h
    split at h
    · next bc2 h2 => exact ih bc2 bc1 (hstep bc bc2 c hP h2) h
    · next r hr =>
      exact absurd h (hr bc1)

/-- A property of all adjacent pairs of a list extends to the list with one more element
when the last element and the new one have it. -/
theorem pairs_append_singleton (Q : Block → Block → Prop) (l : List Block) (last x : Block)
    (hl : l.getLast? = some last) (hx : Q x last)
    (hpairs : ∀ (i : Nat) (cur prev : Block), l[i + 1]? = some cur →
      l[i]? = some prev → Q cur prev) :
    ∀ (i : Nat) (cur prev : Block), (l ++ [x])[i + 1]? = some cur →
      (l ++ [x])[i]? = some prev → Q cur prev := by
  obtain ⟨hne, hlast⟩ := getLast?_eq_getElem? l last hl
  have hpos : 0 < l.length := List.length_pos.mpr hne
  intro i cur prev hc hp
  by_cases hi : i + 1 < l.length
  · rw [List.getElem?_append_left hi] at hc
    rw [List.getElem?_append_left (by omega)] at hp
    exact hpairs i cur prev hc hp
  · have hlt : i + 1 < (l ++ [x]).length := by
      by_contra hge
      rw [List.getElem?_eq_none (by omega)] at hc
      simp at hc
    simp only [List.length_append, List.length_singleton] at hlt
    have hi1 : i = l.length - 1 := by omega
    rw [List.getElem?_append_right (by omega)] at hc
    rw [List.getElem?_append_left (by omega)] at hp
    have hidx : i + 1 - l.length = 0 := by omega
    rw [hidx] at hc
    simp only [List.getElem?_cons_zero, Option.some.injEq] at hc
    subst hc
    rw [hi1, hlast] at hp
    simp only [Option.some.injEq] at hp
    subst hp
    exact hx

theorem addBlock_keeps_links (L : Lib) (n : Nat) (bc bc1 : Blockchain) (from_ to_ : String)
    (amount : Nat) (now : Time)
    (h : addBlock L n bc from_ to_ amount now = some (Except.ok bc1))
    (hlink : ∀ (i : Nat) (cur prev : Block), bc.chain[i + 1]? = some cur →
      bc.chain[i]? = some prev → cur.previousHash = prev.hash) :
    ∀ (i : Nat) (cur prev : Block), bc1.chain[i + 1]? = some cur →
      bc1.chain[i]? = some prev → cur.previousHash = prev.hash := by
  obtain ⟨last, mined, hl, hm, rfl⟩ := addBlock_ok_spec L n bc bc1 from_ to_ amount now h
  exact pairs_append_singleton (fun cur prev => cur.previousHash = prev.hash) bc.chain last
    mined hl (mine_frame L n _ mined _ hm).2.1 hlink

/-- At a difficulty of at least 1 a returning `addBlock` keeps both tests of `isValid`
true on all adjacent pairs. -/
theorem addBlock_keeps_valid (L : Lib) (n : Nat) (bc bc1 : Blockchain) (from_ to_ : String)
    (amount : Nat) (now : Time) (hd : 1 ≤ bc.difficulty)
    (h : addBlock L n bc from_ to_ amount now = some (Except.ok bc1))
    (hpairs : ∀ (i : Nat) (cur prev : Block), bc.chain[i + 1]? = some cur →
      bc.chain[i]? = some prev →
      cur.hash = calculateHash L cur ∧ cur.previousHash = prev.hash) :
    ∀ (i : Nat) (cur prev : Block), bc1.chain[i + 1]? = some cur →
      bc1.chain[i]? = some prev →
      cur.hash = calculateHash L cur ∧ cur.previousHash = prev.hash := by
  obtain ⟨last, mined, hl, hm, rfl⟩ := addBlock_ok_spec L n bc bc1 from_ to_ amount now h
  have hrun : HasPrefix (freshBlock last.hash from_ to_ amount now).hash
      (Repeat "0" bc.difficulty.toNat) = false :=
    HasPrefix_zeros_of_empty _ (by omega)
  exact pairs_append_singleton
    (fun cur prev => cur.hash = calculateHash L cur ∧ cur.previousHash = prev.hash)
    bc.chain last mined hl
    ⟨mine_hash_of_ran L n _ mined _ hm hrun, (mine_frame L n _ mined _ hm).2.1⟩ hpairs

/-- A chain built with a difficulty of at least 1 passes `isValid`. -/
theorem fresh_chain_valid_of_pos_difficulty (L : Lib) (d : Int) (now : Time) (hd : 1 ≤ d)
    (calls : List Call) (bc : Blockchain)
    (h : addBlocks L (CreateBlockchain d now) calls = some (Except.ok bc)) :
    isValid L bc = Except.ok true := by
  have inv := addBlocks_induction L
    (fun bc => 1 ≤ bc.difficulty ∧ bc.chain ≠ [] ∧
      ∀ (i : Nat) (cur prev : Block), bc.chain[i + 1]? = some cur →
        bc.chain[i]? = some prev →
        cur.hash = calculateHash L cur ∧ cur.previousHash = prev.hash)
    (by
      intro bc0 bc1 c hP hadd
      obtain ⟨hd0, _, hpairs⟩ := hP
      have hkeep := addBlock_keeps_valid L c.fuel bc0 bc1 c.from_ c.to_ c.amount c.now hd0
        hadd hpairs
      obtain ⟨last, mined, _, _, rfl⟩ :=
        addBlock_ok_spec L c.fuel bc0 bc1 c.from_ c.to_ c.amount c.now hadd
      exact ⟨hd0, by simp, hkeep⟩)
    calls (CreateBlockchain d now) bc
    ⟨hd, by simp [CreateBlockchain], by
      intro i cur prev hc _
      simp [CreateBlockchain] at hc⟩
    h
  exact (isValid_true_iff L bc inv.2.1).mpr inv.2.2

/-- At difficulty 0 `addBlock` returns at any fuel and appends the block unmined. -/
theorem addBlock_zero_difficulty (L : Lib) (n : Nat) (bc : Blockchain) (from_ to_ : String)
    (amount : Nat) (now : Time) (hd : bc.difficulty = 0) (hne : bc.chain ≠ []) :
    ∃ last, bc.chain.getLast? = some last ∧
      addBlock L n bc from_ to_ amount now
        = some (Except.ok { bc with chain := bc.chain ++
            [freshBlock last.hash from_ to_ amount now] }) := by
  cases hl : bc.chain.getLast? with
  | none => exact absurd (List.getLast?_eq_none_iff.mp hl) hne
  | some last =>
    refine ⟨last, rfl, ?_⟩
    have hm : mine L n (freshBlock last.hash from_ to_ amount now) bc.difficulty
        = some (Except.ok (freshBlock last.hash from_ to_ amount now)) := by
      rw [hd]
      exact mine_done L n _ 0 (le_refl _) (HasPrefix_empty _)
    unfold addBlock
    simp only [hl]
    show (match mine L n (freshBlock last.hash from_ to_ amount now) bc.difficulty with
      | none => none
      | some (Except.error err) => some (Except.error err)
      | some (Except.ok mined) => some (Except.ok { bc with chain := bc.chain ++ [mined] }))
      = _
    rw [hm]

theorem addBlocks_zero_difficulty (L : Lib) :
    ∀ (calls : List Call) (bc : Blockchain), bc.difficulty = 0 → bc.chain ≠ [] →
      ∃ bc1 ext, addBlocks L bc calls = some (Except.ok bc1) ∧
        bc1.chain = bc.chain ++ ext := by
  intro calls
  induction calls with
  | nil =>
    intro bc _ _
    exact ⟨bc, [], rfl, by simp⟩
  | cons c cs ih =>
    intro bc hd hne
    obtain ⟨last, _, hadd⟩ :=
      addBlock_zero_difficulty L c.fuel bc c.from_ c.to_ c.amount c.now hd hne
    obtain ⟨bc1, ext, hrest, hchain⟩ :=
      ih { bc with chain := bc.chain ++ [freshBlock last.hash c.from_ c.to_ c.amount c.now] }
        hd (by simp)
    refine ⟨bc1, freshBlock last.hash c.from_ c.to_ c.amount c.now :: ext, ?_, ?_⟩
    · simp only [addBlocks, hadd]
      exact hrest
    · rw [hchain]
      simp

theorem HasPrefix_calculateHash_long (L : Lib) (b : Block) (n : Nat) (h : 65 ≤ n) :
    HasPrefix (calculateHash L b) (Repeat "0" n) = false := by
  rcases calculateHash_cases L b with ⟨t, ht⟩ | hlen
  · rw [ht]
    exact HasPrefix_zeros_of_error t n (by omega)
  · cases hp : HasPrefix (calculateHash L b) (Repeat "0" n) with
    | false => rfl
    | true =>
      have := HasPrefix_zeros_length _ n hp
      omega

/-- From a block whose stored hash is empty or a result of `calculateHash`, the loop of
`mine` does not end at a difficulty above 64. -/
theorem mine_none_of_long (L : Lib) (d : Int) (hd : 65 ≤ d) :
    ∀ (n : Nat) (b : Block), (b.hash = "" ∨ ∃ b0, b.hash = calculateHash L b0) →
      mine L n b d = none := by
  have hd0 : 0 ≤ d := by omega
  have hnat : 65 ≤ d.toNat := by omega
  have hp : ∀ b : Block, (b.hash = "" ∨ ∃ b0, b.hash = calculateHash L b0) →
      HasPrefix b.hash (Repeat "0" d.toNat) = false := by
    intro b hb
    rcases hb with h0 | ⟨b0, hb0⟩
    · rw [h0]
      exact HasPrefix_zeros_of_empty _ (by omega)
    · rw [hb0]
      exact HasPrefix_calculateHash_long L b0 _ hnat
  intro n
  induction n with
  | zero =>
    intro b hb
    exact mine_zero L b d hd0 (hp b hb)
  | succ m ih =>
    intro b hb
    rw [mine_succ L m b d hd0 (hp b hb)]
    exact ih (mineStep L b) (Or.inr ⟨_, mineStep_hash L b⟩)

theorem calculateHash_of_error (L : Lib) (b : Block) (err : String)
    (h : Marshal L b.data = Except.error err) : calculateHash L b = err := by
  unfold calculateHash
  rw [h]

/-- A block at an index `i ≥ 1` whose stored hash differs from its `calculateHash()` makes
`isValid` return false. -/
theorem isValid_false_of_hash_mismatch (L : Lib) (bc : Blockchain) (i : Nat) (cur : Block)
    (hc : bc.chain[i + 1]? = some cur) (hne : cur.hash ≠ calculateHash L cur) :
    isValid L bc = Except.ok false := by
  have hlt : i + 1 < bc.chain.length := by
    by_contra hge
    rw [List.getElem?_eq_none (by omega)] at hc
    simp at hc
  have hne0 : bc.chain ≠ [] := by
    intro h0
    rw [h0] at hlt
    simp at hlt
  apply isValid_false_of_not_true L bc hne0
  intro htrue
  rw [isValid_true_iff L bc hne0] at htrue
  have hprev : bc.chain[i]? = some (bc.chain[i]) := List.getElem?_eq_getElem (by omega)
  exact hne (htrue i cur _ hc hprev).1

/-! ## The run of `isValid` on the program state -/

/-- From index `i` on, the statement-by-statement loop computes what `isValidLoop` computes,
no index expression fails, and the receiver's block chain is not written. -/
theorem isValidIter_spec (L : Lib) :
    ∀ (remaining i : Nat) (s : ValidState) (p : Block) (rest : List Block),
      s.b.chain.drop i = p :: rest → rest.length = remaining →
      ∃ s1, isValidIter L remaining i s = Except.ok (isValidLoop L p rest, s1) ∧
        s1.b = s.b := by
  intro remaining
  induction remaining with
  | zero =>
    intro i s p rest _ hlen
    have hrest : rest = [] := List.length_eq_zero.mp hlen
    subst hrest
    exact ⟨s, rfl, rfl⟩
  | succ r ih =>
    intro i s p rest hdrop hlen
    cases rest with
    | nil => simp at hlen
    | cons c rest1 =>
      have hp : s.b.chain[i]? = some p := by
        have h0 := congrArg (fun l : List Block => l[0]?) hdrop
        simpa [List.getElem?_drop] using h0
      have hc : s.b.chain[i + 1]? = some c := by
        have h1 := congrArg (fun l : List Block => l[1]?) hdrop
        simpa [List.getElem?_drop] using h1
      have hdrop1 : s.b.chain.drop (i + 1) = c :: rest1 := by
        have h2 := congrArg (fun l : List Block => l.drop 1) hdrop
        simpa [List.drop_drop, Nat.add_comm] using h2
      have hlen1 : rest1.length = r := by simpa using hlen
      simp only [isValidIter, hp, hc, isValidLoop]
      split
      · exact ⟨_, rfl, rfl⟩
      · exact ih (i + 1) { b := s.b, previousBlock := p, currentBlock := c } c rest1
          hdrop1 hlen1

theorem isValidExec_spec (L : Lib) (bc : Blockchain) (g : Block) (rest : List Block)
    (h : bc.chain = g :: rest) :
    isValidExec L bc = Except.ok (isValidLoop L g rest, bc) := by
  obtain ⟨s1, hrun, hb⟩ := isValidIter_spec L rest.length 0
    { b := bc, previousBlock := zeroBlock, currentBlock := zeroBlock } g rest
    (by simpa using h) rfl
  have hlen : bc.chain.length - 1 = rest.length := by rw [h]; simp
  have hnot : ¬ bc.chain.length < 1 := by rw [h]; simp
  unfold isValidExec
  rw [if_neg hnot, hlen, hrun]
  simp only at hb ⊢
  rw [hb]

/-! ## Further facts used by the claims -/

theorem hexDigit_mem (n : Nat) : hexDigit n ∈ "0123456789abcdef".data := by
  have h : ∀ m, m < 16 → Nat.digitChar m ∈ "0123456789abcdef".data := by decide
  exact h (n % 16) (Nat.mod_lt n (by decide))

theorem Sprintf_x_chars (d : Digest) :
    ∀ c ∈ (Sprintf_x d).data, c ∈ "0123456789abcdef".data := by
  intro c hc
  have hc1 : c ∈ (d.bytes.map hexByte).flatten := hc
  rw [List.mem_flatten] at hc1
  obtain ⟨l, hl, hcl⟩ := hc1
  rw [List.mem_map] at hl
  obtain ⟨x, _, rfl⟩ := hl
  simp only [hexByte, List.mem_cons, List.mem_singleton, List.not_mem_nil, or_false] at hcl
  rcases hcl with rfl | rfl
  · exact hexDigit_mem _
  · exact hexDigit_mem _

theorem calculateHash_of_ok (L : Lib) (b : Block) (data : String)
    (h : Marshal L b.data = Except.ok data) :
    calculateHash L b = Sprintf_x (L.Sum256 (bytesOf
      (b.previousHash ++ data ++ L.timeString b.timestamp ++ Itoa b.pow))) := by
  unfold calculateHash
  rw [h]

theorem isValidLoop_congr_hash (L : Lib) (p q : Block) (rest : List Block)
    (h : p.hash = q.hash) : isValidLoop L p rest = isValidLoop L q rest := by
  cases rest with
  | nil => rfl
  | cons c r => simp only [isValidLoop, h]

/-- Every returning `addBlock` keeps the first block of the chain. -/
theorem addBlock_keeps_head (L : Lib) (n : Nat) (bc bc1 : Blockchain) (from_ to_ : String)
    (amount : Nat) (now : Time) (g : Block)
    (h : addBlock L n bc from_ to_ amount now = some (Except.ok bc1))
    (hg : bc.chain.head? = some g) : bc1.chain.head? = some g := by
  obtain ⟨last, mined, _, _, rfl⟩ := addBlock_ok_spec L n bc bc1 from_ to_ amount now h
  cases hc : bc.chain with
  | nil => rw [hc] at hg; simp at hg
  | cons x xs =>
    rw [hc] at hg
    simpa using hg

/-! ## The nonce as a 64-bit integer -/

theorem wrapInt_of_small (x : Int) (h0 : 0 ≤ x) (h1 : x < 2 ^ 63) : wrapInt x = x := by
  unfold wrapInt
  omega

theorem calculateHash_congr (L : Lib) (b b1 : Block) (hdata : b1.data = b.data)
    (hprev : b1.previousHash = b.previousHash) (htime : b1.timestamp = b.timestamp)
    (hpow : b1.pow = b.pow) : calculateHash L b1 = calculateHash L b := by
  unfold calculateHash
  rw [hdata, hprev, htime, hpow]

/-- While fewer than `2 ^ 63` iterations have run from nonce 0, the nonce is the number of
iterations. -/
theorem iterate_mineStep_pow (L : Lib) (b : Block) (hpow : b.pow = 0) :
    ∀ k : Nat, (k : Int) < 2 ^ 63 → ((mineStep L)^[k] b).pow = k := by
  intro k
  induction k with
  | zero =>
    intro _
    simpa using hpow
  | succ m ih =>
    intro hk
    rw [Function.iterate_succ_apply']
    show wrapInt (((mineStep L)^[m] b).pow + 1) = ((m + 1 : Nat) : Int)
    rw [ih (by omega)]
    rw [wrapInt_of_small _ (by omega) (by push_cast at hk; omega)]
    push_cast
    rfl

/-- After at least one iteration the stored hash is the hash of the original block with
the current nonce. -/
theorem iterate_mineStep_hash (L : Lib) (b : Block) (k : Nat) :
    ((mineStep L)^[k + 1] b).hash
      = calculateHash L { b with pow := ((mineStep L)^[k + 1] b).pow } := by
  obtain ⟨hdata, hprev, htime⟩ := iterate_mineStep_frame L (k + 1) b
  have hh : ((mineStep L)^[k + 1] b).hash = calculateHash L ((mineStep L)^[k + 1] b) := by
    rw [Function.iterate_succ_apply']
    exact mineStep_hash L _
  rw [hh]
  exact calculateHash_congr L _ _ hdata hprev htime rfl

/-- When the state after `k` iterations is the first with the zeros in front, `mine` with
fuel `k` returns it. -/
theorem mine_eq_of_least (L : Lib) (d : Int) (hd : 0 ≤ d) :
    ∀ (k : Nat) (b : Block),
      (∀ j, j < k → HasPrefix ((mineStep L)^[j] b).hash (Repeat "0" d.toNat) = false) →
      HasPrefix ((mineStep L)^[k] b).hash (Repeat "0" d.toNat) = true →
      mine L k b d = some (Except.ok ((mineStep L)^[k] b)) := by
  intro k
  induction k with
  | zero =>
    intro b _ h
    exact mine_done L 0 b d hd h
  | succ m ih =>
    intro b hmin h
    rw [mine_succ L m b d hd (hmin 0 (by omega))]
    rw [Function.iterate_succ_apply] at h
    rw [Function.iterate_succ_apply]
    exact ih (mineStep L b)
      (fun j hj => by
        have := hmin (j + 1) (by omega)
        rwa [Function.iterate_succ_apply] at this)
      h

/-- From nonce 0, the state after `2 ^ 63` iterations: the nonce has wrapped to the least
64-bit integer, and the hash is the hash with that nonce. -/
theorem iterate_mineStep_wrap (L : Lib) (b : Block) (hpow : b.pow = 0) :
    (mineStep L)^[9223372036854775807 + 1] b
      = { b with
          pow := -9223372036854775808,
          hash := calculateHash L { b with pow := -9223372036854775808 } } := by
  have hpow0 := iterate_mineStep_pow L b hpow 9223372036854775807 (by norm_num)
  obtain ⟨hdata, hprev, htime⟩ := iterate_mineStep_frame L (9223372036854775807 + 1) b
  have hpow1 : ((mineStep L)^[9223372036854775807 + 1] b).pow = -9223372036854775808 := by
    rw [Function.iterate_succ_apply']
    show wrapInt (((mineStep L)^[9223372036854775807] b).pow + 1) = _
    rw [hpow0]
    decide
  have hhash := iterate_mineStep_hash L b 9223372036854775807
  rw [hpow1] at hhash
  generalize (mineStep L)^[9223372036854775807 + 1] b = x at *
  cases x
  cases b
  simp only at hdata hprev htime hpow1 hhash
  simp [hdata, hprev, htime, hpow1, hhash]

/-- The nonce is a 64-bit integer and wraps: when, for an unmined block, no nonce from 1 to
`2 ^ 63 - 1` gives a hash with `d ≥ 1` zeros in front and the nonce `-2 ^ 63` does, `mine(d)`
returns after `2 ^ 63` iterations with the nonce `-2 ^ 63`. -/
theorem mine_wraps_to_negative (L : Lib) (b : Block) (d : Int) (hpow : b.pow = 0)
    (hhash : b.hash = "") (hd : 1 ≤ d)
    (hmiss : ∀ k : Int, 1 ≤ k → k < 2 ^ 63 →
      HasPrefix (calculateHash L { b with pow := k }) (Repeat "0" d.toNat) = false)
    (hhit : HasPrefix (calculateHash L { b with pow := -9223372036854775808 })
      (Repeat "0" d.toNat) = true) :
    mine L 9223372036854775808 b d
      = some (Except.ok { b with
          pow := -9223372036854775808,
          hash := calculateHash L { b with pow := -9223372036854775808 } }) := by
  have hk : (9223372036854775808 : Nat) = 9223372036854775807 + 1 := by norm_num
  rw [hk, ← iterate_mineStep_wrap L b hpow]
  apply mine_eq_of_least L d (by omega)
  · intro j hj
    cases j with
    | zero =>
      rw [Function.iterate_zero, id_eq, hhash]
      exact HasPrefix_zeros_of_empty _ (by omega)
    | succ i =>
      have hlt : ((i + 1 : Nat) : Int) < 2 ^ 63 := by
        have : i + 1 < 2 ^ 63 := by omega
        exact_mod_cast this
      have hpi := iterate_mineStep_pow L b hpow (i + 1) hlt
      rw [iterate_mineStep_hash L b i, hpi]
      exact hmiss _ (by push_cast; omega) hlt
  · rw [iterate_mineStep_wrap L b hpow]
    exact hhit

/-- The nonce `mine` returns with, on runs in which the 64-bit nonce has not wrapped. On an
unmined block (nonce 0, hash empty) and at a difficulty `d ≥ 1`, if `mine(d)` returns within
fewer than `2 ^ 63` loop iterations with nonce `n`, then `n ≥ 1`, the stored hash is the hash
computed from the block's `previousHash`, payload and timestamp with nonce `n`, it has `d`
zeros in front, and for no integer `k` with `1 ≤ k < n` has the hash computed with nonce
`k` got `d` zeros in front. -/
theorem mine_nonce_least (L : Lib) (n : Nat) (b b1 : Block) (d : Int) (hpow : b.pow = 0)
    (hhash : b.hash = "") (hd : 1 ≤ d) (hn : n < 2 ^ 63)
    (h : mine L n b d = some (Except.ok b1)) :
    1 ≤ b1.pow ∧
    b1.hash = calculateHash L { b with pow := b1.pow } ∧
    HasPrefix (calculateHash L { b with pow := b1.pow }) (Repeat "0" d.toNat) = true ∧
    ∀ k : Int, 1 ≤ k → k < b1.pow →
      HasPrefix (calculateHash L { b with pow := k }) (Repeat "0" d.toNat) = false := by
  obtain ⟨_, hb1, k, hk, hiter, hmin⟩ := mine_ok_spec L d n b b1 h
  have hempty : HasPrefix b.hash (Repeat "0" d.toNat) = false := by
    rw [hhash]
    exact HasPrefix_zeros_of_empty _ (by omega)
  cases k with
  | zero =>
    simp only [Function.iterate_zero, id_eq] at hiter
    subst hiter
    rw [hempty] at hb1
    exact absurd hb1 (by simp)
  | succ m =>
    have hm : ((m + 1 : Nat) : Int) < 2 ^ 63 := by
      have : m + 1 < 2 ^ 63 := by omega
      exact_mod_cast this
    have hp1 : b1.pow = ((m + 1 : Nat) : Int) := by
      rw [hiter]
      exact iterate_mineStep_pow L b hpow (m + 1) hm
    have hh1 : b1.hash = calculateHash L { b with pow := b1.pow } := by
      rw [hiter]
      exact iterate_mineStep_hash L b m
    refine ⟨by rw [hp1]; push_cast; omega, hh1, by rw [← hh1]; exact hb1, ?_⟩
    intro j hj1 hj2
    obtain ⟨i, rfl⟩ : ∃ i : Nat, j = ((i + 1 : Nat) : Int) :=
      ⟨(j - 1).toNat, by push_cast; omega⟩
    have hi : i + 1 < m + 1 := by
      rw [hp1] at hj2
      exact_mod_cast hj2
    have hpi := iterate_mineStep_pow L b hpow (i + 1) (by
      have : i + 1 < 2 ^ 63 := by omega
      exact_mod_cast this)
    have hno := hmin (i + 1) hi
    rw [iterate_mineStep_hash L b i, hpi] at hno
    exact hno

/-- The texts `strconv.Itoa` and `%x` produce, on examples. -/
theorem Itoa_hexByte_examples :
    Itoa 42 = "42" ∧ Itoa 0 = "0" ∧ Itoa (-7) = "-7" ∧ hexByte 171 = ['a', 'b'] ∧
      hexByte 5 = ['0', '5'] := by
  decide

/-- On a block with empty stored hash, as `addBlock` builds it, a `mine(d)` that returns at
a difficulty `d ≥ 1` has run the loop body, so the stored hash equals `calculateHash()` on
the block's final fields. -/
theorem mine_fresh_hash_of_pos_difficulty (L : Lib) (n : Nat) (b b1 : Block) (d : Int)
    (hhash : b.hash = "") (hd : 1 ≤ d) (h : mine L n b d = some (Except.ok b1)) :
    b1.hash = calculateHash L b1 := by
  apply mine_hash_of_ran L n b b1 d h
  rw [hhash]
  exact HasPrefix_zeros_of_empty _ (by omega)

/-! ## The claims -/

/-- C1, evaluated where it fails. On `CreateBlockchain(0)` every sequence of one or more
`addBlock` calls returns, whatever the fuel, and `isValid()` on the resulting chain returns
false: the first added block keeps the empty hash, which differs from its
`calculateHash()`. -/
theorem fresh_chain_invalid_at_difficulty_zero (L : Lib) (now : Time) (c : Call)
    (cs : List Call) :
    ∃ bc, addBlocks L (CreateBlockchain 0 now) (c :: cs) = some (Except.ok bc) ∧
      isValid L bc = Except.ok false := by
  obtain ⟨last, hl, hadd⟩ := addBlock_zero_difficulty L c.fuel (CreateBlockchain 0 now)
    c.from_ c.to_ c.amount c.now rfl (by simp [CreateBlockchain])
  obtain ⟨bc, ext, hrest, hchain⟩ := addBlocks_zero_difficulty L cs
    { CreateBlockchain 0 now with chain := (CreateBlockchain 0 now).chain ++
        [freshBlock last.hash c.from_ c.to_ c.amount c.now] } rfl (by simp)
  refine ⟨bc, ?_, ?_⟩
  · simp only [addBlocks, hadd]
    exact hrest
  · have hne : (freshBlock last.hash c.from_ c.to_ c.amount c.now).hash
        ≠ calculateHash L (freshBlock last.hash c.from_ c.to_ c.amount c.now) :=
      fun h => calculateHash_ne_empty L _ h.symm
    simp only [CreateBlockchain, List.singleton_append, List.cons_append] at hchain
    simp only [isValid, hchain, isValidLoop]
    simp [hne]

/-- C2. On a chain that holds at least the genesis block, `isValid()` returns true if and
only if for every index `i` with `1 ≤ i < len(chain)` the block `chain[i]` has
`hash == calculateHash()` and `previousHash == chain[i-1].hash`; in particular it returns
true on a chain holding only the genesis block. -/
theorem isValid_iff_all_pairs (L : Lib) (bc : Blockchain) (h : bc.chain ≠ []) :
    (isValid L bc = Except.ok true ↔
      ∀ (i : Nat) (cur prev : Block), 1 ≤ i → bc.chain[i]? = some cur →
        bc.chain[i - 1]? = some prev →
        cur.hash = calculateHash L cur ∧ cur.previousHash = prev.hash) ∧
    (bc.chain.length = 1 → isValid L bc = Except.ok true) := by
  have key := isValid_true_iff L bc h
  refine ⟨?_, ?_⟩
  · rw [key]
    constructor
    · intro hall i cur prev hi hc hp
      obtain ⟨j, rfl⟩ : ∃ j, i = j + 1 := ⟨i - 1, by omega⟩
      exact hall j cur prev hc (by simpa using hp)
    · intro hall i cur prev hc hp
      exact hall (i + 1) cur prev (by omega) hc (by simpa using hp)
  · intro hlen
    rw [key]
    intro i cur prev hc _
    have hlt : i + 1 < bc.chain.length := by
      by_contra hge
      rw [List.getElem?_eq_none (by omega)] at hc
      simp at hc
    omega

theorem isValid_iff_all_pairs_witness :
    (CreateBlockchain 2 t0).chain ≠ [] ∧
    ((isValid zeroLib (CreateBlockchain 2 t0) = Except.ok true ↔
      ∀ (i : Nat) (cur prev : Block), 1 ≤ i → (CreateBlockchain 2 t0).chain[i]? = some cur →
        (CreateBlockchain 2 t0).chain[i - 1]? = some prev →
        cur.hash = calculateHash zeroLib cur ∧ cur.previousHash = prev.hash) ∧
    ((CreateBlockchain 2 t0).chain.length = 1 →
      isValid zeroLib (CreateBlockchain 2 t0) = Except.ok true)) :=
  ⟨by simp [CreateBlockchain],
    isValid_iff_all_pairs zeroLib (CreateBlockchain 2 t0) (by simp [CreateBlockchain])⟩

/-- C3, evaluated where it fails. On the unmined block `addBlock` builds (hash empty,
nonce 0), `mine(0)` returns at any fuel without running the loop body, so the stored hash
is still empty, while `calculateHash()` of the returned block is never empty: the stored
hash differs from `calculateHash()` on the block's final fields, whatever the library
returns. -/
theorem mine_zero_difficulty_leaves_hash_unset (L : Lib) (n : Nat)
    (lastHash from_ to_ : String) (amount : Nat) (now : Time) :
    mine L n (freshBlock lastHash from_ to_ amount now) 0
      = some (Except.ok (freshBlock lastHash from_ to_ amount now)) ∧
    (freshBlock lastHash from_ to_ amount now).hash = "" ∧
    (freshBlock lastHash from_ to_ amount now).hash
      ≠ calculateHash L (freshBlock lastHash from_ to_ amount now) :=
  ⟨mine_done L n _ 0 (le_refl _) (HasPrefix_empty _), rfl,
    fun h => calculateHash_ne_empty L _ h.symm⟩

/-- C4. Whenever `mine(d)` returns, `d` is not negative, the stored hash has at least `d`
characters and each of its first `d` characters is `0`. -/
theorem mine_hash_leading_zeros (L : Lib) (n : Nat) (b b1 : Block) (d : Int)
    (h : mine L n b d = some (Except.ok b1)) :
    0 ≤ d ∧ d.toNat ≤ b1.hash.length ∧
      ∀ i, i < d.toNat → b1.hash.data[i]? = some '0' := by
  obtain ⟨hd, hb1, _⟩ := mine_ok_spec L d n b b1 h
  refine ⟨hd, HasPrefix_zeros_length _ _ hb1, ?_⟩
  intro i hi
  rw [HasPrefix_zeros_iff] at hb1
  obtain ⟨t, ht⟩ := hb1
  rw [← ht, List.getElem?_append_left (by simpa using hi)]
  simp [List.getElem?_replicate, hi]

theorem mine_hash_leading_zeros_witness :
    mine zeroLib 1 zeroBlock 2 = some (Except.ok (mineStep zeroLib zeroBlock)) ∧
    ((0 : Int) ≤ 2 ∧ (2 : Int).toNat ≤ (mineStep zeroLib zeroBlock).hash.length ∧
      ∀ i, i < (2 : Int).toNat → (mineStep zeroLib zeroBlock).hash.data[i]? = some '0') :=
  ⟨by rfl, mine_hash_leading_zeros zeroLib 1 zeroBlock (mineStep zeroLib zeroBlock) 2 (by rfl)⟩

/-- C5. In a chain with at least two blocks, replacing the `previousHash` of the block at
an index `i ≥ 1` by any value other than `chain[i-1].hash` makes `isValid()` return false,
whatever the block's stored hash is (also when it still equals `calculateHash()`). -/
theorem isValid_false_of_broken_link (L : Lib) (bc : Blockchain) (i : Nat)
    (cur prev : Block) (v : String) (hi : 1 ≤ i) (hc : bc.chain[i]? = some cur)
    (hp : bc.chain[i - 1]? = some prev) (hv : v ≠ prev.hash) :
    isValid L { bc with chain := bc.chain.set i { cur with previousHash := v } }
      = Except.ok false := by
  have hlt : i < bc.chain.length := by
    by_contra hge
    rw [List.getElem?_eq_none (by omega)] at hc
    simp at hc
  have hne : (bc.chain.set i { cur with previousHash := v }) ≠ [] := by
    intro h0
    have := congrArg List.length h0
    simp only [List.length_set, List.length_nil] at this
    omega
  apply isValid_false_of_not_true L _ hne
  intro htrue
  rw [isValid_true_iff L _ hne] at htrue
  obtain ⟨j, rfl⟩ : ∃ j, i = j + 1 := ⟨i - 1, by omega⟩
  have h1 := htrue j { cur with previousHash := v } prev
    (by simp [List.getElem?_set, hlt])
    (by
      have hp1 : bc.chain[j]? = some prev := by simpa using hp
      simp [List.getElem?_set, hp1])
  exact hv h1.2

theorem isValid_false_of_broken_link_witness :
    1 ≤ 1 ∧ aliceChain.chain[1]? = some (mineStep zeroLib aliceBlock) ∧
    aliceChain.chain[1 - 1]? = some (CreateBlockchain 1 t0).genesisBlock ∧
    "x" ≠ (CreateBlockchain 1 t0).genesisBlock.hash ∧
    isValid zeroLib { aliceChain with
        chain := List.set aliceChain.chain 1
          { (mineStep zeroLib aliceBlock) with previousHash := "x" } }
      = Except.ok false :=
  ⟨le_refl 1, rfl, rfl, by decide,
    isValid_false_of_broken_link zeroLib aliceChain 1 (mineStep zeroLib aliceBlock)
      (CreateBlockchain 1 t0).genesisBlock "x" (le_refl 1) rfl rfl (by decide)⟩

/-- C7. A returning `addBlock(from, to, amount)` was called on a chain that is not empty
and yields a chain one block longer, whose first blocks are the old chain unchanged, whose
last block has the payload `from`, `to`, `amount` and as `previousHash` the hash of the old
last block; `difficulty` and `genesisBlock` are unchanged. -/
theorem addBlock_appends_one (L : Lib) (n : Nat) (bc bc1 : Blockchain) (from_ to_ : String)
    (amount : Nat) (now : Time)
    (h : addBlock L n bc from_ to_ amount now = some (Except.ok bc1)) :
    bc.chain ≠ [] ∧
    bc1.chain.length = bc.chain.length + 1 ∧
    bc1.chain.take bc.chain.length = bc.chain ∧
    (∃ last added, bc.chain.getLast? = some last ∧ bc1.chain.getLast? = some added ∧
      added.data = some [(fromAddressField, Value.str from_), (toAddressField, Value.str to_),
        (amountField, Value.float64 amount)] ∧
      added.previousHash = last.hash) ∧
    bc1.difficulty = bc.difficulty ∧ bc1.genesisBlock = bc.genesisBlock := by
  obtain ⟨last, mined, hl, hm, rfl⟩ := addBlock_ok_spec L n bc bc1 from_ to_ amount now h
  obtain ⟨hdata, hprev, _⟩ := mine_frame L n _ mined _ hm
  refine ⟨(getLast?_eq_getElem? bc.chain last hl).1, by simp, by simp, ?_, rfl, rfl⟩
  exact ⟨last, mined, hl, by simp, hdata, hprev⟩

theorem addBlock_appends_one_witness :
    addBlock zeroLib 1 (CreateBlockchain 1 t0) "Alice" "Bob" five t0
      = some (Except.ok aliceChain) ∧
    ((CreateBlockchain 1 t0).chain ≠ [] ∧
    aliceChain.chain.length = (CreateBlockchain 1 t0).chain.length + 1 ∧
    aliceChain.chain.take (CreateBlockchain 1 t0).chain.length = (CreateBlockchain 1 t0).chain ∧
    (∃ last added, (CreateBlockchain 1 t0).chain.getLast? = some last ∧
      aliceChain.chain.getLast? = some added ∧
      added.data = some [(fromAddressField, Value.str "Alice"), (toAddressField, Value.str "Bob"),
        (amountField, Value.float64 five)] ∧
      added.previousHash = last.hash) ∧
    aliceChain.difficulty = (CreateBlockchain 1 t0).difficulty ∧
    aliceChain.genesisBlock = (CreateBlockchain 1 t0).genesisBlock) :=
  ⟨by rfl, addBlock_appends_one zeroLib 1 (CreateBlockchain 1 t0) aliceChain "Alice" "Bob" five
    t0 (by rfl)⟩

/-- C8. In every chain obtained from `CreateBlockchain(d)` by a sequence of returning
`addBlock` calls, every block at an index `i` with `1 ≤ i < len(chain)` has as
`previousHash` the hash of the block at index `i - 1`. -/
theorem reachable_chain_linked (L : Lib) (d : Int) (now : Time) (calls : List Call)
    (bc : Blockchain)
    (h : addBlocks L (CreateBlockchain d now) calls = some (Except.ok bc)) :
    ∀ (i : Nat) (cur prev : Block), 1 ≤ i → bc.chain[i]? = some cur →
      bc.chain[i - 1]? = some prev → cur.previousHash = prev.hash := by
  have inv := addBlocks_induction L
    (fun bc => ∀ (i : Nat) (cur prev : Block), bc.chain[i + 1]? = some cur →
      bc.chain[i]? = some prev → cur.previousHash = prev.hash)
    (fun bc0 bc1 c hP hadd =>
      addBlock_keeps_links L c.fuel bc0 bc1 c.from_ c.to_ c.amount c.now hadd hP)
    calls (CreateBlockchain d now) bc
    (by
      intro i cur prev hc _
      simp [CreateBlockchain] at hc)
    h
  intro i cur prev hi hc hp
  obtain ⟨j, rfl⟩ : ∃ j, i = j + 1 := ⟨i - 1, by omega⟩
  exact inv j cur prev hc (by simpa using hp)

theorem reachable_chain_linked_witness :
    addBlocks zeroLib (CreateBlockchain 1 t0) [⟨1, "Alice", "Bob", five, t0⟩]
      = some (Except.ok aliceChain) ∧
    ∀ (i : Nat) (cur prev : Block), 1 ≤ i → aliceChain.chain[i]? = some cur →
      aliceChain.chain[i - 1]? = some prev → cur.previousHash = prev.hash :=
  ⟨by rfl, reachable_chain_linked zeroLib 1 t0 [⟨1, "Alice", "Bob", five, t0⟩] aliceChain
    (by rfl)⟩

/-- C9, as stated, fails: on the block `addBlock("Alice", "Bob", 5)` builds, the loop of
`mine(65)` has not ended after any number of iterations, whatever the library returns (a
hash has 64 characters, an error text starts with `j`). -/
theorem mine_difficulty_65_never_returns :
    aliceBlock.hash = "" ∧ ∀ (L : Lib) (n : Nat), mine L n aliceBlock 65 = none :=
  ⟨rfl, fun L n => mine_none_of_long L 65 (le_refl _) n aliceBlock (Or.inl rfl)⟩

/-- C9, amended. The loop of `mine(d)` ends, and `mine` returns, if and only if `d` is not
negative and some finite number `k ≥ 0` of iterations (nonce increment, then hash
recomputation) leaves a stored hash with `d` characters `0` in front. -/
theorem mine_returns_iff (L : Lib) (b : Block) (d : Int) :
    (∃ n b1, mine L n b d = some (Except.ok b1)) ↔
      (0 ≤ d ∧ ∃ k, HasPrefix ((mineStep L)^[k] b).hash (Repeat "0" d.toNat) = true) := by
  constructor
  · rintro ⟨n, b1, h⟩
    obtain ⟨hd, hb1, k, _, hiter, _⟩ := mine_ok_spec L d n b b1 h
    exact ⟨hd, k, hiter ▸ hb1⟩
  · rintro ⟨hd, k, hk⟩
    exact mine_returns_of_iterate L d hd k b hk

/-- C10, as stated, fails: the amount of `nanBlock` is a NaN, and for every library
`calculateHash()` returns the error text as its result, one iteration of the loop of `mine`
stores that text in the hash field, and `isValid()` accepts a chain whose second block has
this payload and that text as stored hash. -/
theorem calculateHash_error_text_used_as_hash :
    IsNaN nan = true ∧
    ∀ L : Lib, calculateHash L nanBlock = "json: unsupported value: NaN" ∧
      (mineStep L nanBlock).hash = "json: unsupported value: NaN" ∧
      isValid L
        { genesisBlock := (CreateBlockchain 1 t0).genesisBlock,
          chain := [(CreateBlockchain 1 t0).genesisBlock,
            { nanBlock with hash := "json: unsupported value: NaN" }],
          difficulty := 1 } = Except.ok true :=
  ⟨by decide, fun L => ⟨by rfl, by rfl, by rfl⟩⟩

/-- C10, amended. For every block whose payload cannot be serialised, `calculateHash()`
returns the text of the error, which starts with `json: unsupported value: `, as its
result; an iteration of the loop of `mine` stores that text in the hash field, and
`isValid()` compares the stored hash with it as with a digest: a chain whose second block
has that text as stored hash and is linked to the first passes. -/
theorem calculateHash_error_is_result (L : Lib) (b : Block) (err : String)
    (h : Marshal L b.data = Except.error err) :
    calculateHash L b = err ∧ (∃ t, err = "json: unsupported value: " ++ t) ∧
      (mineStep L b).hash = err ∧
      ∀ (g0 prev : Block) (d : Int),
        isValid L (Blockchain.mk g0
          [prev, { b with hash := err, previousHash := prev.hash }] d) = Except.ok true := by
  have hstep : (mineStep L b).hash = err :=
    calculateHash_of_error L { b with pow := wrapInt (b.pow + 1) } err h
  refine ⟨calculateHash_of_error L b err h, Marshal_error L b.data err h, hstep, ?_⟩
  intro g0 prev d
  have hc : calculateHash L { b with hash := err, previousHash := prev.hash } = err :=
    calculateHash_of_error L { b with hash := err, previousHash := prev.hash } err h
  simp [isValid, isValidLoop, hc]

theorem calculateHash_error_is_result_witness :
    Marshal zeroLib nanBlock.data = Except.error "json: unsupported value: NaN" ∧
    (calculateHash zeroLib nanBlock = "json: unsupported value: NaN" ∧
      (∃ t, "json: unsupported value: NaN" = "json: unsupported value: " ++ t) ∧
      (mineStep zeroLib nanBlock).hash = "json: unsupported value: NaN" ∧
      ∀ (g0 prev : Block) (d : Int),
        isValid zeroLib (Blockchain.mk g0
          [prev,
            { nanBlock with
              hash := "json: unsupported value: NaN", previousHash := prev.hash }] d)
          = Except.ok true) :=
  ⟨by rfl, calculateHash_error_is_result zeroLib nanBlock "json: unsupported value: NaN"
    (by rfl)⟩

/-- C11. For a block whose payload serialises to `data`, `calculateHash()` is the `%x`
rendering of `sha256.Sum256` applied to the bytes of `previousHash`, `data`, the timestamp's
text and the nonce in decimal, concatenated in this order; it has 64 characters, each a
lowercase hexadecimal digit; and every block with the same payload, `previousHash`,
timestamp and nonce has the same `calculateHash()`, whatever its stored hash is. -/
theorem calculateHash_eq_sha256_hex (L : Lib) (b : Block) (data : String)
    (h : Marshal L b.data = Except.ok data) :
    calculateHash L b = Sprintf_x (L.Sum256 (bytesOf
      (b.previousHash ++ data ++ L.timeString b.timestamp ++ Itoa b.pow))) ∧
    (calculateHash L b).length = 64 ∧
    (∀ c ∈ (calculateHash L b).data, c ∈ "0123456789abcdef".data) ∧
    ∀ b1 : Block, b1.data = b.data → b1.previousHash = b.previousHash →
      b1.timestamp = b.timestamp → b1.pow = b.pow →
      calculateHash L b1 = calculateHash L b := by
  have heq := calculateHash_of_ok L b data h
  refine ⟨heq, ?_, ?_, ?_⟩
  · rw [heq]
    exact Sprintf_x_length _
  · rw [heq]
    exact Sprintf_x_chars _
  · intro b1 hdata hprev htime hpow
    unfold calculateHash
    rw [hdata, hprev, htime, hpow]

theorem calculateHash_eq_sha256_hex_witness :
    Marshal zeroLib aliceBlock.data
      = Except.ok "\x7b\"amount\":4617315517961601024,\"from\":\"Alice\",\"to\":\"Bob\"\x7d" ∧
    (calculateHash zeroLib aliceBlock = Sprintf_x (zeroLib.Sum256 (bytesOf
      (aliceBlock.previousHash
        ++ "\x7b\"amount\":4617315517961601024,\"from\":\"Alice\",\"to\":\"Bob\"\x7d"
        ++ zeroLib.timeString aliceBlock.timestamp ++ Itoa aliceBlock.pow))) ∧
    (calculateHash zeroLib aliceBlock).length = 64 ∧
    (∀ c ∈ (calculateHash zeroLib aliceBlock).data, c ∈ "0123456789abcdef".data) ∧
    ∀ b1 : Block, b1.data = aliceBlock.data → b1.previousHash = aliceBlock.previousHash →
      b1.timestamp = aliceBlock.timestamp → b1.pow = aliceBlock.pow →
      calculateHash zeroLib b1 = calculateHash zeroLib aliceBlock) :=
  ⟨by rfl, calculateHash_eq_sha256_hex zeroLib aliceBlock _ (by rfl)⟩

/-- C12. On every chain that contains at least the genesis block, whatever the fields of
its blocks are, the run of `isValid()` ends with a boolean: neither the slice expression nor
an index expression fails. Every chain obtained from `CreateBlockchain` by returning
`addBlock` calls contains at least the genesis block, as its first block. -/
theorem isValid_returns_boolean (L : Lib) (bc : Blockchain) :
    (bc.chain ≠ [] →
      ∃ r : Bool, isValidExec L bc = Except.ok (r, bc) ∧ isValid L bc = Except.ok r) ∧
    (∀ (d : Int) (now : Time) (calls : List Call),
      addBlocks L (CreateBlockchain d now) calls = some (Except.ok bc) →
      bc.chain ≠ [] ∧ bc.chain.head? = some (CreateBlockchain d now).genesisBlock) := by
  constructor
  · intro hne
    cases hc : bc.chain with
    | nil => exact absurd hc hne
    | cons g rest =>
      refine ⟨isValidLoop L g rest, isValidExec_spec L bc g rest hc, ?_⟩
      simp only [isValid, hc]
  · intro d now calls h
    have hhead := addBlocks_induction L
      (fun c => c.chain.head? = some (CreateBlockchain d now).genesisBlock)
      (fun bc0 bc1 c hP hadd =>
        addBlock_keeps_head L c.fuel bc0 bc1 c.from_ c.to_ c.amount c.now _ hadd hP)
      calls (CreateBlockchain d now) bc rfl h
    have hhead1 : bc.chain.head? = some (CreateBlockchain d now).genesisBlock := hhead
    refine ⟨?_, hhead1⟩
    intro h0
    rw [h0] at hhead1
    simp at hhead1

theorem isValid_returns_boolean_witness :
    aliceChain.chain ≠ [] ∧
    addBlocks zeroLib (CreateBlockchain 1 t0) [⟨1, "Alice", "Bob", five, t0⟩]
      = some (Except.ok aliceChain) ∧
    (∃ r : Bool, isValidExec zeroLib aliceChain = Except.ok (r, aliceChain) ∧
      isValid zeroLib aliceChain = Except.ok r) ∧
    (aliceChain.chain ≠ [] ∧
      aliceChain.chain.head? = some (CreateBlockchain 1 t0).genesisBlock) :=
  ⟨by decide, by rfl, (isValid_returns_boolean zeroLib aliceChain).1 (by decide),
    (isValid_returns_boolean zeroLib aliceChain).2 1 t0 [⟨1, "Alice", "Bob", five, t0⟩]
      (by rfl)⟩

/-- C13. For every integer `d` and clock reading, `CreateBlockchain(d)` returns a chain
with difficulty `d` whose chain holds exactly one block, the genesis block, with hash `0`,
nil payload, empty `previousHash`, nonce 0 and the clock reading as timestamp. The hash is
this constant whatever `d` is: it is not a result of `calculateHash`, and for `d ≥ 2` it
does not have `d` zeros in front. -/
theorem CreateBlockchain_genesis (L : Lib) (d : Int) (now : Time) :
    (CreateBlockchain d now).difficulty = d ∧
    (CreateBlockchain d now).chain = [(CreateBlockchain d now).genesisBlock] ∧
    (CreateBlockchain d now).chain.length = 1 ∧
    (CreateBlockchain d now).genesisBlock.hash = "0" ∧
    (CreateBlockchain d now).genesisBlock.data = none ∧
    (CreateBlockchain d now).genesisBlock.previousHash = "" ∧
    (CreateBlockchain d now).genesisBlock.pow = 0 ∧
    (CreateBlockchain d now).genesisBlock.timestamp = now ∧
    (CreateBlockchain d now).genesisBlock.hash
      ≠ calculateHash L (CreateBlockchain d now).genesisBlock ∧
    (2 ≤ d → HasPrefix (CreateBlockchain d now).genesisBlock.hash (Repeat "0" d.toNat)
      = false) := by
  refine ⟨rfl, rfl, rfl, rfl, rfl, rfl, rfl, rfl, ?_, ?_⟩
  · intro h
    rcases calculateHash_cases L (CreateBlockchain d now).genesisBlock with ⟨t, ht⟩ | hlen
    · rw [← h] at ht
      have hl := congrArg String.length ht
      simp only [String.length_append] at hl
      have h1 : (CreateBlockchain d now).genesisBlock.hash.length = 1 := rfl
      have h2 : ("json: unsupported value: " : String).length = 25 := by decide
      omega
    · rw [← h] at hlen
      have h1 : (CreateBlockchain d now).genesisBlock.hash.length = 1 := rfl
      omega
  · intro hd
    cases hp : HasPrefix (CreateBlockchain d now).genesisBlock.hash (Repeat "0" d.toNat) with
    | false => rfl
    | true =>
      have hlen := HasPrefix_zeros_length _ _ hp
      have h1 : (CreateBlockchain d now).genesisBlock.hash.length = 1 := rfl
      omega

/-- C14. A returning `mine(d)` leaves the block's payload, `previousHash` and timestamp as
they were before the call; the two remaining fields, nonce and hash, are the only ones that
may differ. -/
theorem mine_preserves_fields (L : Lib) (n : Nat) (b b1 : Block) (d : Int)
    (h : mine L n b d = some (Except.ok b1)) :
    b1.data = b.data ∧ b1.previousHash = b.previousHash ∧ b1.timestamp = b.timestamp ∧
      b1 = { b with pow := b1.pow, hash := b1.hash } := by
  obtain ⟨_, _, k, _, hiter, _⟩ := mine_ok_spec L d n b b1 h
  obtain ⟨hdata, hprev, htime⟩ := iterate_mineStep_frame L k b
  rw [← hiter] at hdata hprev htime
  refine ⟨hdata, hprev, htime, ?_⟩
  cases b1
  cases b
  simp only at hdata hprev htime
  simp [hdata, hprev, htime]

theorem mine_preserves_fields_witness :
    mine zeroLib 1 aliceBlock 1 = some (Except.ok (mineStep zeroLib aliceBlock)) ∧
    ((mineStep zeroLib aliceBlock).data = aliceBlock.data ∧
      (mineStep zeroLib aliceBlock).previousHash = aliceBlock.previousHash ∧
      (mineStep zeroLib aliceBlock).timestamp = aliceBlock.timestamp ∧
      mineStep zeroLib aliceBlock = { aliceBlock with
        pow := (mineStep zeroLib aliceBlock).pow, hash := (mineStep zeroLib aliceBlock).hash }) :=
  ⟨by rfl, mine_preserves_fields zeroLib 1 aliceBlock (mineStep zeroLib aliceBlock) 1 (by rfl)⟩

/-- C15. On an unmined block (nonce 0, hash empty) `mine(0)` returns without running the
loop body (fuel 0 suffices), with every field as before; in particular the nonce stays 0
and the hash stays empty. -/
theorem mine_zero_returns_at_once (L : Lib) (b : Block) (hpow : b.pow = 0)
    (hhash : b.hash = "") :
    mine L 0 b 0 = some (Except.ok b) ∧
    ∀ (n : Nat) (b1 : Block), mine L n b 0 = some (Except.ok b1) →
      b1 = b ∧ b1.pow = 0 ∧ b1.hash = "" := by
  have hdone : ∀ n, mine L n b 0 = some (Except.ok b) := fun n =>
    mine_done L n b 0 (le_refl _) (HasPrefix_empty _)
  refine ⟨hdone 0, ?_⟩
  intro n b1 h
  rw [hdone n] at h
  simp only [Option.some.injEq, Except.ok.injEq] at h
  subst h
  exact ⟨rfl, hpow, hhash⟩

theorem mine_zero_returns_at_once_witness :
    aliceBlock.pow = 0 ∧ aliceBlock.hash = "" ∧
    (mine zeroLib 0 aliceBlock 0 = some (Except.ok aliceBlock) ∧
    ∀ (n : Nat) (b1 : Block), mine zeroLib n aliceBlock 0 = some (Except.ok b1) →
      b1 = aliceBlock ∧ b1.pow = 0 ∧ b1.hash = "") :=
  ⟨rfl, rfl, mine_zero_returns_at_once zeroLib aliceBlock rfl rfl⟩

/-- C16. On a chain containing at least the genesis block, the run of `isValid()` ends
with the receiver's block chain exactly as it was (same blocks with the same fields, same
`genesisBlock`, same `difficulty`), and a second call right after the first returns the
same boolean and again changes nothing. -/
theorem isValid_changes_nothing (L : Lib) (bc : Blockchain) (h : bc.chain ≠ []) :
    (∃ r : Bool, isValidExec L bc = Except.ok (r, bc)) ∧
    ∀ (r1 : Bool) (bc1 : Blockchain), isValidExec L bc = Except.ok (r1, bc1) →
      bc1 = bc ∧
      ∀ (r2 : Bool) (bc2 : Blockchain), isValidExec L bc1 = Except.ok (r2, bc2) →
        r2 = r1 ∧ bc2 = bc := by
  cases hc : bc.chain with
  | nil => exact absurd hc h
  | cons g rest =>
    have hrun := isValidExec_spec L bc g rest hc
    refine ⟨⟨_, hrun⟩, ?_⟩
    intro r1 bc1 h1
    rw [hrun] at h1
    simp only [Except.ok.injEq, Prod.mk.injEq] at h1
    obtain ⟨hr1, hbc1⟩ := h1
    subst hbc1
    refine ⟨rfl, ?_⟩
    intro r2 bc2 h2
    rw [hrun] at h2
    simp only [Except.ok.injEq, Prod.mk.injEq] at h2
    exact ⟨by rw [← h2.1, hr1], h2.2.symm⟩

theorem isValid_changes_nothing_witness :
    aliceChain.chain ≠ [] ∧
    ((∃ r : Bool, isValidExec zeroLib aliceChain = Except.ok (r, aliceChain)) ∧
    ∀ (r1 : Bool) (bc1 : Blockchain), isValidExec zeroLib aliceChain = Except.ok (r1, bc1) →
      bc1 = aliceChain ∧
      ∀ (r2 : Bool) (bc2 : Blockchain), isValidExec zeroLib bc1 = Except.ok (r2, bc2) →
        r2 = r1 ∧ bc2 = aliceChain) :=
  ⟨by decide, isValid_changes_nothing zeroLib aliceChain (by decide)⟩

/-- C18. Two chains whose first blocks have the same hash and whose remaining blocks are
the same get the same result from `isValid()`, whatever their difficulties, their
`genesisBlock` fields and the payload, `previousHash`, timestamp and nonce of their first
blocks are. -/
theorem isValid_ignores_difficulty_and_genesis_fields (L : Lib) (bc bc1 : Blockchain)
    (g g1 : Block) (rest : List Block) (h : bc.chain = g :: rest)
    (h1 : bc1.chain = g1 :: rest) (hhash : g.hash = g1.hash) :
    isValid L bc = isValid L bc1 := by
  simp only [isValid, h, h1]
  rw [isValidLoop_congr_hash L g g1 rest hhash]

theorem isValid_ignores_difficulty_and_genesis_fields_witness :
    aliceChain.chain = (CreateBlockchain 1 t0).genesisBlock :: [mineStep zeroLib aliceBlock] ∧
    (Blockchain.mk zeroBlock [{ nanBlock with hash := "0" }, mineStep zeroLib aliceBlock] 7).chain
      = { nanBlock with hash := "0" } :: [mineStep zeroLib aliceBlock] ∧
    (CreateBlockchain 1 t0).genesisBlock.hash = ({ nanBlock with hash := "0" } : Block).hash ∧
    isValid zeroLib aliceChain
      = isValid zeroLib
          (Blockchain.mk zeroBlock [{ nanBlock with hash := "0" }, mineStep zeroLib aliceBlock] 7) :=
  ⟨rfl, rfl, rfl,
    isValid_ignores_difficulty_and_genesis_fields zeroLib aliceChain
      (Blockchain.mk zeroBlock [{ nanBlock with hash := "0" }, mineStep zeroLib aliceBlock] 7)
      (CreateBlockchain 1 t0).genesisBlock { nanBlock with hash := "0" }
      [mineStep zeroLib aliceBlock] rfl rfl rfl⟩

/-- C19. On a block whose stored hash already has `d ≥ 0` zeros in front, `mine(d)`
returns, at any fuel, the block with every field unchanged; hence on the block a returning
`mine(d)` has produced, a second `mine(d)` returns that same block. -/
theorem mine_idempotent (L : Lib) (b : Block) (d : Int) :
    (0 ≤ d → HasPrefix b.hash (Repeat "0" d.toNat) = true →
      ∀ m : Nat, mine L m b d = some (Except.ok b)) ∧
    (∀ (n : Nat) (b1 : Block), mine L n b d = some (Except.ok b1) →
      ∀ m : Nat, mine L m b1 d = some (Except.ok b1)) := by
  constructor
  · intro hd hp m
    exact mine_done L m b d hd hp
  · intro n b1 h m
    obtain ⟨hd, hp, _⟩ := mine_ok_spec L d n b b1 h
    exact mine_done L m b1 d hd hp

theorem mine_idempotent_witness :
    (0 : Int) ≤ 1 ∧
    HasPrefix (CreateBlockchain 1 t0).genesisBlock.hash (Repeat "0" (1 : Int).toNat) = true ∧
    mine zeroLib 1 aliceBlock 1 = some (Except.ok (mineStep zeroLib aliceBlock)) ∧
    (∀ m : Nat, mine zeroLib m (CreateBlockchain 1 t0).genesisBlock 1
      = some (Except.ok (CreateBlockchain 1 t0).genesisBlock)) ∧
    (∀ m : Nat, mine zeroLib m (mineStep zeroLib aliceBlock) 1
      = some (Except.ok (mineStep zeroLib aliceBlock))) :=
  ⟨by decide, by rfl, by rfl,
    (mine_idempotent zeroLib (CreateBlockchain 1 t0).genesisBlock 1).1 (by decide) (by rfl),
    (mine_idempotent zeroLib aliceBlock 1).2 1 (mineStep zeroLib aliceBlock) (by rfl)⟩

end BuildBlockChain
